import Mathlib

/-!
Shallow embedding of the wordwarden scanner (src/main.rs).

The program scans files for target strings.  Per line it first checks an
escape marker (plain substring test), then the target: a plain substring
test when `check_case` is true, otherwise a case-insensitive match through
a regex built as `(?i)` + `regex::escape(target)`, whose semantics on an
escaped literal is case-folded substring containment.  Case folding of the
`(?i)` flag is modelled by `Char.toLower` on every character.

Files are modelled by `FileModel`: a name, whether `File::open` succeeds,
and the sequence of results the `lines()` iterator yields (`ok` text,
a decode failure, or another I/O failure).  Rust machine strings are
modelled by Lean `String`/`List Char`; `io::Result` by `Except Unit`.

The rayon orchestration `filepaths.par_iter().map(..).collect::<Result<..>>()`
deposits every task's output at the slot of its original input index and is
modelled by `run_parallel`, parametrised by the order in which tasks
complete; `run_sequential` is the sequential reading of the same code.

`main` unwraps the collected result (a Rust panic on `Err`, which
terminates the process with the fixed panic exit status 101), prints the
report and exits 1 or 0 according to whether anything was found.
-/

/-- ANSI bold-on marker (`BOLD_START` in the source). -/
def BOLD_START : String := "\x1b[1m"

/-- ANSI reset marker (`BOLD_END` in the source). -/
def BOLD_END : String := "\x1b[0m"

/-- One matched line instance (`struct Occurance` in the source). -/
structure Occurance where
  filename : String
  line_number : Nat
  target_string : String
  line_content : String
deriving DecidableEq

/-- Rust `str::contains` on character lists: `needle` occurs contiguously in
the haystack.  Scans left to right, testing at every suffix. -/
def charsContain (needle : List Char) : List Char → Bool
  | [] => needle.isEmpty
  | c :: cs => (List.isPrefixOf needle (c :: cs)) || charsContain needle cs

/-- Rust `str::contains`: literal substring test. -/
def strContains (haystack needle : String) : Bool :=
  charsContain needle.data haystack.data

/-- Case folding used to model the regex `(?i)` flag and `to_lowercase`. -/
def lowerChars (cs : List Char) : List Char := cs.map Char.toLower

/-- Case folding on strings. -/
def lowerStr (s : String) : String := ⟨lowerChars s.data⟩

/-- Semantics of `Regex::new("(?i)" + regex::escape(needle)).is_match(haystack)`:
the escaped pattern is a literal, so matching is case-folded substring
containment. -/
def caselessContains (haystack needle : String) : Bool :=
  strContains (lowerStr haystack) (lowerStr needle)

/-- The per-line match test of `check_file`: `line.contains(target)` when
`check_case`, otherwise the `(?i)`-literal regex match. -/
def lineMatches (check_case : Bool) (target line : String) : Bool :=
  if check_case then strContains line target else caselessContains line target

/-- What the `reader.lines()` iterator yields for one line: decoded text, an
`InvalidData` decode failure, or another I/O error. -/
inductive LineResult where
  | ok (line : String)
  | decodeErr
  | ioErr
deriving DecidableEq

/-- A file as the scanner observes it: its path string, whether
`File::open` succeeds, and the line results read from it. -/
structure FileModel where
  name : String
  openable : Bool
  lines : List LineResult
deriving DecidableEq

/-- The line loop of `check_file` (src/main.rs lines 73-104): `index` is the
0-based `enumerate` counter, `results` the accumulator.  A decode failure
returns `Ok(vec![])`, discarding the accumulator; another I/O error
propagates as `Err`; otherwise a line is skipped when it contains the
escape marker, and pushed as an `Occurance` when the target matches. -/
def checkLines (filename target : String) (check_case : Bool) (escape : String) :
    List LineResult → Nat → List Occurance → Except Unit (List Occurance)
  | [], _, results => Except.ok results
  | LineResult.decodeErr :: _, _, _ => Except.ok []
  | LineResult.ioErr :: _, _, _ => Except.error ()
  | LineResult.ok line :: rest, index, results =>
    if strContains line escape then
      checkLines filename target check_case escape rest (index + 1) results
    else if lineMatches check_case target line then
      checkLines filename target check_case escape rest (index + 1)
        (results ++ [⟨filename, index + 1, target, line⟩])
    else
      checkLines filename target check_case escape rest (index + 1) results

/-- `check_file` (src/main.rs lines 51-107): fails when the open fails,
otherwise runs the line loop from index 0 with an empty accumulator. -/
def check_file (f : FileModel) (target : String) (check_case : Bool) (escape : String) :
    Except Unit (List Occurance) :=
  if f.openable then checkLines f.name target check_case escape f.lines 0 []
  else Except.error ()

/-- The body of one rayon task (src/main.rs lines 171-180): scan one file
for every target in order, appending results, propagating the first error. -/
def fileTask (targets : List String) (cc : Bool) (escape : String) (f : FileModel) :
    Except Unit (List Occurance) :=
  targets.foldlM (fun acc t => Except.map (fun r => acc ++ r) (check_file f t cc escape)) []

/-- The sequential reading of the orchestration in `main` (src/main.rs lines
169-182): files in list order, the per-file task for each, results
flattened; any task error makes the whole result an error. -/
def run_sequential (files : List FileModel) (targets : List String) (cc : Bool)
    (escape : String) : Except Unit (List Occurance) :=
  Except.map List.flatten (files.mapM (fileTask targets cc escape))

/-- Writing one completed task's result into the index-keyed result buffer. -/
def deposit {α : Type} (buf : Nat → Option α) (i : Nat) (r : α) : Nat → Option α :=
  fun j => if j = i then some r else buf j

/-- The pure result of the task for input index `i`.  Indices handed to the
pool always come from `List.range files.length`, so the out-of-range default
is never consulted. -/
def taskResult (files : List FileModel) (targets : List String) (cc : Bool)
    (escape : String) (i : Nat) : Except Unit (List Occurance) :=
  match files.get? i with
  | some f => fileTask targets cc escape f
  | none => Except.ok []

/-- Model of `filepaths.par_iter().map(..).collect::<Result<Vec<_>,_>>()`
followed by flattening: tasks complete in the arbitrary order `order`, each
depositing its output at the slot of its original input index; the buffer
is then read out in fixed index order and collected. -/
def run_parallel (files : List FileModel) (targets : List String) (cc : Bool)
    (escape : String) (order : List Nat) : Except Unit (List Occurance) :=
  let buf := order.foldl
    (fun b i => deposit b i (taskResult files targets cc escape i)) (fun _ => none)
  let collected := (List.range files.length).filterMap buf
  Except.map List.flatten (collected.mapM id)

/-- Closed form of the line loop on decodable input: the occurrences of the
lines from 0-based index `n` on, one per line that misses the escape marker
and matches the target. -/
def expectedOccs (name target escape : String) (cc : Bool) : List String → Nat → List Occurance
  | [], _ => []
  | line :: rest, n =>
    if !strContains line escape && lineMatches cc target line then
      ⟨name, n + 1, target, line⟩ :: expectedOccs name target escape cc rest (n + 1)
    else
      expectedOccs name target escape cc rest (n + 1)

/-- Wrapping matched text in the two ANSI markers. -/
def wrapBold (cs : List Char) : List Char := BOLD_START.data ++ cs ++ BOLD_END.data

/-- The scan of `re.replace_all` for the pattern `(?i)` + escaped target
(`t` is the case-folded target): leftmost, non-overlapping matches are
wrapped, keeping the original casing of the matched text.  An empty target
matches the empty string at every position, as the empty regex does.  The
fuel argument only drives structural recursion; every step consumes at
least one character, so `fuel = length of the text` never runs out. -/
def hlGo (t : List Char) : Nat → List Char → List Char
  | _, [] => if t.isEmpty then wrapBold [] else []
  | 0, l => l
  | fuel + 1, c :: cs =>
    if t.isEmpty then wrapBold [] ++ c :: hlGo t fuel cs
    else if List.isPrefixOf t (lowerChars (c :: cs)) then
      wrapBold ((c :: cs).take t.length) ++ hlGo t fuel ((c :: cs).drop t.length)
    else
      c :: hlGo t fuel cs

/-- `highlight_text` (src/main.rs lines 22-30): replace every
case-insensitive literal match of `highlight` in `line` by the match
wrapped in the bold markers. -/
def highlight_text (line highlight : String) : String :=
  ⟨hlGo (lowerChars highlight.data) line.data.length line.data⟩

/-- The string `format!("{}:{}", filename, line_number)` printed before the
separator (src/main.rs line 194). -/
def occKey (r : Occurance) : String := r.filename ++ ":" ++ toString r.line_number

/-- `iter().max().unwrap_or(0)` on a list of naturals. -/
def maxNatList : List Nat → Nat
  | [] => 0
  | x :: xs => Nat.max x (maxNatList xs)

/-- `extra_line_space` (src/main.rs line 187). -/
def extra_line_space : Nat := 1

/-- `max_line_length` (src/main.rs lines 188-192): the maximum over all
results of `extra_line_space + filename.len() + line_number.to_string().len()`,
or 0 when there are no results. -/
def max_line_length (results : List Occurance) : Nat :=
  maxNatList (results.map
    (fun r => extra_line_space + r.filename.length + (toString r.line_number).length))

/-- Rust `{:<width$}`: left-align `s` in a field of `w` characters, padding
on the right with spaces (no padding when `s` is already at least `w`). -/
def padTo (s : String) (w : Nat) : String :=
  s ++ ⟨List.replicate (w - s.length) ' '⟩

/-- One printed line (src/main.rs lines 193-201). -/
def renderLine (w : Nat) (r : Occurance) : String :=
  padTo (occKey r) w ++ " -> " ++ highlight_text r.line_content r.target_string

/-- The full report: one line per occurrence, aligned to the common width. -/
def render (results : List Occurance) : List String :=
  results.map (renderLine (max_line_length results))

/-- What the process does after scanning: panic on `unwrap` of an `Err`, or
print the report and exit with the computed status. -/
inductive RunOutcome where
  | panic
  | normal (output : List String) (code : Nat)
deriving DecidableEq

/-- The tail of `main` (src/main.rs lines 184-204): `all_results.unwrap()`
panics on an error; otherwise the report is printed and the process exits
1 when anything was found, 0 otherwise.  By the scheduling-independence of
the orchestration (proved below) the collected result is `run_sequential`. -/
def main_run (files : List FileModel) (targets : List String) (cc : Bool)
    (escape : String) : RunOutcome :=
  match run_sequential files targets cc escape with
  | Except.error _ => RunOutcome.panic
  | Except.ok results =>
      RunOutcome.normal (render results) (if results.isEmpty then 0 else 1)

/-- The fixed exit status of a Rust panic (the runtime aborts the process
with status 101 after an unwinding panic such as a failed `unwrap`). -/
def rustPanicExitCode : Nat := 101

/-- The process exit status of an outcome. -/
def exitCode : RunOutcome → Nat
  | RunOutcome.panic => rustPanicExitCode
  | RunOutcome.normal _ c => c

/-- A directory entry as `read_dir` presents it: a regular file, a readable
subdirectory, a subdirectory whose recursive read fails, or something that
is neither a file nor a directory. -/
inductive FsEntry where
  | file (name : String)
  | dir (name : String) (entries : List FsEntry)
  | unreadableDir (name : String)
  | skipped

/-- `files_in_dir` (src/main.rs lines 32-49): every regular file is pushed
(no name-based exclusion), subdirectories are recursed into depth-first,
a failing subdirectory read is swallowed, other entries are skipped. -/
def files_in_dir (base : String) : List FsEntry → List String
  | [] => []
  | FsEntry.file n :: rest => (base ++ "/" ++ n) :: files_in_dir base rest
  | FsEntry.dir n sub :: rest => files_in_dir (base ++ "/" ++ n) sub ++ files_in_dir base rest
  | FsEntry.unreadableDir _ :: rest => files_in_dir base rest
  | FsEntry.skipped :: rest => files_in_dir base rest

/-- What the filesystem says about one argument: `path.is_file()`,
`path.is_dir()` with the entries `read_dir` would yield, a directory whose
read fails, or neither. -/
inductive ArgKind where
  | file
  | dir (entries : List FsEntry)
  | dirErr
  | other

/-- The mutable state of the argument loop in `main`. -/
structure Config where
  filepaths : List String
  search_strings : List String
  check_case : Bool
  escape : String
deriving DecidableEq

/-- The state before the argument loop (src/main.rs lines 129-132). -/
def initConfig : Config :=
  { filepaths := [], search_strings := [], check_case := false,
    escape := "wordwarden:skip-line" }

/-- Characters of the component after the last `/` separator (`acc` holds
the current component reversed). -/
def fileNameChars : List Char → List Char → List Char
  | acc, [] => acc.reverse
  | _, '/' :: cs => fileNameChars [] cs
  | acc, c :: cs => fileNameChars (c :: acc) cs

/-- `Path::file_name` as used on the argument strings: the component after
the last separator. -/
def file_name (p : String) : String := ⟨fileNameChars [] p.data⟩

/-- Rust `str::starts_with`: the pattern is a leading literal of the string. -/
def strStarts (s pat : String) : Bool := List.isPrefixOf pat.data s.data

/-- The character scan of `str::replace(pat, "")` for a non-empty pattern:
every leftmost occurrence of `pat` is dropped.  The fuel argument only
drives structural recursion; `fuel = length of the text` never runs out. -/
def removeAllGo (pat : List Char) : Nat → List Char → List Char
  | _, [] => []
  | 0, l => l
  | fuel + 1, c :: cs =>
    if List.isPrefixOf pat (c :: cs) then removeAllGo pat fuel ((c :: cs).drop pat.length)
    else c :: removeAllGo pat fuel cs

/-- Rust `str::replace(pat, "")` as used for the `--escape=` flag. -/
def removeAll (s pat : String) : String := ⟨removeAllGo pat.data s.data.length s.data⟩

/-- Effect of one iteration of the argument loop of `main` (src/main.rs
lines 136-165) on the loop state: `Sum.inl` carries the updated state when
the iteration consumes only `arg`; `Sum.inr ()` signals the `-w` branch,
which additionally consumes the following argument.  A direct file argument
is pushed unless its file name is one of the two pre-commit configuration
names; a directory argument is expanded by `files_in_dir`; flags update the
configuration; anything else is a search string. -/
def parseStep (classify : String → ArgKind) (arg : String) (cfg : Config) :
    Sum Config Unit :=
  match classify arg with
  | ArgKind.file =>
      if (file_name arg != ".pre-commit-config.yaml")
          && (file_name arg != ".pre-commit-config.yml") then
        Sum.inl { cfg with filepaths := cfg.filepaths ++ [arg] }
      else
        Sum.inl cfg
  | ArgKind.dir entries =>
      Sum.inl { cfg with filepaths := cfg.filepaths ++ files_in_dir arg entries }
  | ArgKind.dirErr => Sum.inl cfg
  | ArgKind.other =>
      if strStarts arg "--casecheck" then
        Sum.inl { cfg with check_case := true }
      else if strStarts arg "--no-casecheck" then
        Sum.inl { cfg with check_case := false }
      else if strStarts arg "--escape=" then
        Sum.inl { cfg with escape := removeAll arg "--escape=" }
      else if strStarts arg "-w" then
        Sum.inr ()
      else
        Sum.inl { cfg with search_strings := cfg.search_strings ++ [arg] }

/-- The argument loop of `main` (src/main.rs lines 134-167): one `parseStep`
per argument; the `-w` branch consumes the next argument unconditionally as
a search string, and when no next argument exists the indexing `args[i]` is
out of bounds, which panics (`Except.error`). -/
def parseLoop (classify : String → ArgKind) : List String → Config → Except Unit Config
  | [], cfg => Except.ok cfg
  | [arg], cfg =>
    Sum.elim (fun cfg2 => parseLoop classify [] cfg2)
      (fun _ => Except.error ())
      (parseStep classify arg cfg)
  | arg :: next :: rest, cfg =>
    Sum.elim (fun cfg2 => parseLoop classify (next :: rest) cfg2)
      (fun _ => parseLoop classify rest
        { cfg with search_strings := cfg.search_strings ++ [next] })
      (parseStep classify arg cfg)

/-- Outcome of argument handling: the usage message with exit 2, a panic
from out-of-bounds indexing, or a parsed configuration. -/
inductive ParseOutcome where
  | usageExit
  | panicOOB
  | ok (cfg : Config)
deriving DecidableEq

/-- The front of `main` (src/main.rs lines 110-167): fewer than two
arguments or a help flag print usage and exit 2; otherwise the loop runs
over the arguments after the program name. -/
def parseArgs (classify : String → ArgKind) (args : List String) : ParseOutcome :=
  if args.length < 2 || args.contains "-h" || args.contains "--help" then
    ParseOutcome.usageExit
  else
    match parseLoop classify (args.drop 1) initConfig with
    | Except.error _ => ParseOutcome.panicOOB
    | Except.ok cfg => ParseOutcome.ok cfg


/-! ## Closed form of the line loop -/

theorem checkLines_ok_eq (name target escape : String) (cc : Bool) :
    ∀ (lines : List String) (n : Nat) (acc : List Occurance),
      checkLines name target cc escape (lines.map LineResult.ok) n acc
        = Except.ok (acc ++ expectedOccs name target escape cc lines n) := by
  intro lines
  induction lines with
  | nil => intro n acc; simp [checkLines, expectedOccs]
  | cons line rest ih =>
    intro n acc
    cases h1 : strContains line escape with
    | true => simp [checkLines, expectedOccs, h1, ih]
    | false =>
      cases h2 : lineMatches cc target line with
      | true => simp [checkLines, expectedOccs, h1, h2, ih]
      | false => simp [checkLines, expectedOccs, h1, h2, ih]

theorem expectedOccs_eq_enumFrom (name target escape : String) (cc : Bool) :
    ∀ (lines : List String) (n : Nat),
      expectedOccs name target escape cc lines n
        = ((List.enumFrom n lines).filter
            (fun p => !strContains p.2 escape && lineMatches cc target p.2)).map
            (fun p => ⟨name, p.1 + 1, target, p.2⟩) := by
  intro lines
  induction lines with
  | nil => intro n; simp [expectedOccs]
  | cons line rest ih =>
    intro n
    cases h : (!strContains line escape && lineMatches cc target line) with
    | true => simp [expectedOccs, List.enumFrom, List.filter_cons, h, ih]
    | false => simp [expectedOccs, List.enumFrom, List.filter_cons, h, ih]

theorem expectedOccs_length (name target escape : String) (cc : Bool) :
    ∀ (lines : List String) (n : Nat),
      (expectedOccs name target escape cc lines n).length
        = lines.countP (fun l => !strContains l escape && lineMatches cc target l) := by
  intro lines
  induction lines with
  | nil => intro n; simp [expectedOccs]
  | cons line rest ih =>
    intro n
    cases h : (!strContains line escape && lineMatches cc target line) with
    | true => simp [expectedOccs, h, ih, List.countP_cons]
    | false => simp [expectedOccs, h, ih, List.countP_cons]

theorem expectedOccs_line_number_gt (name target escape : String) (cc : Bool) :
    ∀ (lines : List String) (n : Nat) (o : Occurance),
      o ∈ expectedOccs name target escape cc lines n → n < o.line_number := by
  intro lines
  induction lines with
  | nil => intro n o ho; simp [expectedOccs] at ho
  | cons line rest ih =>
    intro n o ho
    cases h : (!strContains line escape && lineMatches cc target line) with
    | true =>
      rw [expectedOccs, if_pos h] at ho
      rcases List.mem_cons.mp ho with rfl | ho
      · exact Nat.lt_succ_self n
      · exact Nat.lt_of_succ_lt (ih (n + 1) o ho)
    | false =>
      rw [expectedOccs, if_neg (by simp [h])] at ho
      exact Nat.lt_of_succ_lt (ih (n + 1) o ho)

theorem expectedOccs_pairwise (name target escape : String) (cc : Bool) :
    ∀ (lines : List String) (n : Nat),
      (expectedOccs name target escape cc lines n).Pairwise
        (fun a b => a.line_number < b.line_number) := by
  intro lines
  induction lines with
  | nil => intro n; simp [expectedOccs]
  | cons line rest ih =>
    intro n
    cases h : (!strContains line escape && lineMatches cc target line) with
    | true =>
      rw [expectedOccs, if_pos h]
      refine List.Pairwise.cons ?_ (ih (n + 1))
      intro o ho
      exact expectedOccs_line_number_gt name target escape cc rest (n + 1) o ho
    | false =>
      rw [expectedOccs, if_neg (by simp [h])]
      exact ih (n + 1)

/-- Claim C1: on a decodable file, `check_file` succeeds with exactly one
`Occurance` per line that matches the target under the active case rule and
does not contain the escape marker as a literal substring (a line holding
the escape marker yields nothing, whatever the case mode); the occurrences
carry strictly increasing line numbers in list order, and their number is
the count of such lines. -/
theorem check_file_one_occurrence_per_matching_line
    (name target escape : String) (cc : Bool) (lines : List String) :
    check_file ⟨name, true, lines.map LineResult.ok⟩ target cc escape
      = Except.ok (((List.enumFrom 0 lines).filter
            (fun p => !strContains p.2 escape && lineMatches cc target p.2)).map
            (fun p => ⟨name, p.1 + 1, target, p.2⟩))
    ∧ (((List.enumFrom 0 lines).filter
            (fun p => !strContains p.2 escape && lineMatches cc target p.2)).map
            (fun p => (⟨name, p.1 + 1, target, p.2⟩ : Occurance))).length
        = lines.countP (fun l => !strContains l escape && lineMatches cc target l)
    ∧ (((List.enumFrom 0 lines).filter
            (fun p => !strContains p.2 escape && lineMatches cc target p.2)).map
            (fun p => (⟨name, p.1 + 1, target, p.2⟩ : Occurance))).Pairwise
        (fun a b => a.line_number < b.line_number) := by
  have he := expectedOccs_eq_enumFrom name target escape cc lines 0
  refine ⟨?_, ?_, ?_⟩
  · rw [← he]
    simp [check_file, checkLines_ok_eq]
  · rw [← he, expectedOccs_length]
  · rw [← he]
    exact expectedOccs_pairwise name target escape cc lines 0

/-! ## Scheduling-independence of the orchestration -/

theorem depositFold_apply {α : Type} (task : Nat → α) :
    ∀ (order : List Nat) (init : Nat → Option α) (j : Nat),
      (order.foldl (fun b i => deposit b i (task i)) init) j
        = if j ∈ order then some (task j) else init j := by
  intro order
  induction order with
  | nil => intro init j; simp
  | cons a rest ih =>
    intro init j
    rw [List.foldl_cons, ih]
    by_cases hj : j ∈ rest
    · simp [hj]
    · by_cases hja : j = a
      · subst hja; simp [hj, deposit]
      · simp [hj, hja, deposit]

theorem filterMap_of_forall_some {α β : Type} (f : α → Option β) (g : α → β) :
    ∀ (l : List α), (∀ x ∈ l, f x = some (g x)) → l.filterMap f = l.map g := by
  intro l
  induction l with
  | nil => intro _; simp
  | cons a rest ih =>
    intro h
    rw [List.filterMap_cons, h a (List.mem_cons_self a rest), List.map_cons,
      ih (fun x hx => h x (List.mem_cons_of_mem a hx))]

theorem mapM_taskResult (targets : List String) (cc : Bool) (escape : String) :
    ∀ (files : List FileModel),
      ((List.range files.length).map (taskResult files targets cc escape)).mapM id
        = files.mapM (fileTask targets cc escape) := by
  intro files
  induction files with
  | nil => rfl
  | cons f fs ih =>
    have hcomp : taskResult (f :: fs) targets cc escape ∘ Nat.succ
        = taskResult fs targets cc escape := by
      funext i
      simp [taskResult]
    rw [List.length_cons, List.range_succ_eq_map, List.map_cons, List.map_map, hcomp]
    have h0 : taskResult (f :: fs) targets cc escape 0 = fileTask targets cc escape f := by
      simp [taskResult]
    rw [h0, List.mapM_cons, List.mapM_cons, ih]
    rfl

/-- Claim C2: whatever order the parallel tasks complete in (any permutation
of the input indices), the aggregated list equals the sequential run over
files in list order, each file scanned for the targets in list order; the
result never depends on scheduling. -/
theorem run_parallel_eq_run_sequential (files : List FileModel) (targets : List String)
    (cc : Bool) (escape : String) (order : List Nat)
    (h : order.Perm (List.range files.length)) :
    run_parallel files targets cc escape order = run_sequential files targets cc escape := by
  rw [run_parallel, run_sequential]
  have hfm : (List.range files.length).filterMap
      (order.foldl (fun b i => deposit b i (taskResult files targets cc escape i))
        (fun _ => none))
      = (List.range files.length).map (taskResult files targets cc escape) := by
    refine filterMap_of_forall_some _ _ _ (fun j hj => ?_)
    rw [depositFold_apply]
    simp [h.mem_iff.mpr hj]
  rw [hfm, mapM_taskResult]

/-- Witness for C2 at a concrete scan: two files, target `alpha`, tasks
completing in reversed order. -/
theorem run_parallel_eq_run_sequential_witness :
    ([1, 0] : List Nat).Perm (List.range 2)
    ∧ run_parallel [⟨"a.txt", true, [LineResult.ok "alpha"]⟩,
          ⟨"b.txt", true, [LineResult.ok "gamma alpha"]⟩]
        ["alpha"] false "wordwarden:skip-line" [1, 0]
      = run_sequential [⟨"a.txt", true, [LineResult.ok "alpha"]⟩,
          ⟨"b.txt", true, [LineResult.ok "gamma alpha"]⟩]
        ["alpha"] false "wordwarden:skip-line" :=
  ⟨by decide,
    run_parallel_eq_run_sequential _ _ _ _ _ (by decide)⟩

/-! ## Substring semantics of the match rule -/

theorem charsContain_spec (needle : List Char) :
    ∀ hay : List Char, charsContain needle hay = true ↔ needle <:+: hay := by
  intro hay
  induction hay with
  | nil => simp [charsContain, List.isEmpty_iff]
  | cons c cs ih =>
    rw [charsContain, Bool.or_eq_true, List.isPrefixOf_iff_prefix, ih, List.infix_cons_iff]

/-- Claim C3: with `check_case = true` the match is a literal substring test
with no case folding; with `check_case = false` it is case-insensitive and
the target stays literal text (regex metacharacters such as `.` never act
as syntax), so `Foo` matches `this has foo in it` only case-insensitively. -/
theorem lineMatches_literal_substring_semantics :
    (∀ target line : String, lineMatches true target line = true ↔ target.data <:+: line.data)
    ∧ (∀ target line : String,
        lineMatches false target line = true
          ↔ lowerChars target.data <:+: lowerChars line.data)
    ∧ lineMatches false "Foo" "this has foo in it" = true
    ∧ lineMatches true "Foo" "this has foo in it" = false
    ∧ lineMatches false "a.b" "xa.bz" = true
    ∧ lineMatches false "a.b" "xaybz" = false := by
  refine ⟨?_, ?_, by decide, by decide, by decide, by decide⟩
  · intro target line
    have hm : lineMatches true target line = charsContain target.data line.data := rfl
    rw [hm]
    exact charsContain_spec _ _
  · intro target line
    have hm : lineMatches false target line
        = charsContain (lowerChars target.data) (lowerChars line.data) := rfl
    rw [hm]
    exact charsContain_spec _ _

/-! ## Exit behaviour -/

/-- Counterexample to claim C4 as stated: when a file cannot be opened, the
process does not exit with code 2 — the `unwrap` panics and the process
terminates with the Rust panic status 101. -/
theorem io_error_exit_code_not_two :
    exitCode (main_run [⟨"vanished.txt", false, []⟩] ["alpha"] false "wordwarden:skip-line")
      = rustPanicExitCode
    ∧ exitCode (main_run [⟨"vanished.txt", false, []⟩] ["alpha"] false "wordwarden:skip-line")
      ≠ 2 :=
  ⟨rfl, by decide⟩

/-- Claim C4 as amended: if any per-file scan fails with an I/O error other
than a decode failure, the run aborts by panicking on `unwrap` — terminating
with the Rust panic status 101, not exit code 2 — and prints no occurrence
output. -/
theorem io_error_panics_no_output (files : List FileModel) (targets : List String)
    (cc : Bool) (escape : String)
    (h : run_sequential files targets cc escape = Except.error ()) :
    main_run files targets cc escape = RunOutcome.panic
    ∧ exitCode (main_run files targets cc escape) = 101 := by
  constructor <;> simp [main_run, h, exitCode, rustPanicExitCode]

/-- Witness for the amended C4 at a concrete unopenable file. -/
theorem io_error_panics_no_output_witness :
    run_sequential [⟨"vanished.txt", false, []⟩] ["alpha"] false "wordwarden:skip-line"
      = Except.error ()
    ∧ main_run [⟨"vanished.txt", false, []⟩] ["alpha"] false "wordwarden:skip-line"
      = RunOutcome.panic :=
  ⟨rfl, (io_error_panics_no_output [⟨"vanished.txt", false, []⟩] ["alpha"] false
    "wordwarden:skip-line" rfl).1⟩

/-- Claim C6: when the scan completes without a run-level I/O failure, the
exit status is 1 when the aggregated list is non-empty and 0 when it is
empty. -/
theorem exit_status_reflects_occurrences (files : List FileModel) (targets : List String)
    (cc : Bool) (escape : String) (results : List Occurance)
    (h : run_sequential files targets cc escape = Except.ok results) :
    main_run files targets cc escape
      = RunOutcome.normal (render results) (if results.isEmpty then 0 else 1)
    ∧ exitCode (main_run files targets cc escape) = (if results.isEmpty then 0 else 1) := by
  constructor <;> simp [main_run, h, exitCode]

/-- Witness for C6 at a concrete scan with one occurrence (exit status 1). -/
theorem exit_status_reflects_occurrences_witness :
    run_sequential [⟨"a.txt", true, [LineResult.ok "alpha"]⟩] ["alpha"] false
        "wordwarden:skip-line"
      = Except.ok [⟨"a.txt", 1, "alpha", "alpha"⟩]
    ∧ exitCode (main_run [⟨"a.txt", true, [LineResult.ok "alpha"]⟩] ["alpha"] false
        "wordwarden:skip-line")
      = (if ([(⟨"a.txt", 1, "alpha", "alpha"⟩ : Occurance)] : List Occurance).isEmpty
          then 0 else 1) :=
  ⟨rfl, (exit_status_reflects_occurrences [⟨"a.txt", true, [LineResult.ok "alpha"]⟩]
    ["alpha"] false "wordwarden:skip-line" [⟨"a.txt", 1, "alpha", "alpha"⟩] rfl).2⟩

/-! ## Reporter alignment -/

/-- Counterexample to claim C5 as stated: for a single occurrence `a:1` the
computed width is 3 — the length of `a:1` itself, not one plus it.  The
code's `extra_line_space` only offsets the colon missing from
`filename.len() + line_number.to_string().len()`. -/
theorem max_line_length_counterexample :
    max_line_length [⟨"a", 1, "t", "l"⟩] = (occKey ⟨"a", 1, "t", "l"⟩).length
    ∧ max_line_length [⟨"a", 1, "t", "l"⟩] ≠ 1 + (occKey ⟨"a", 1, "t", "l"⟩).length :=
  ⟨by decide, by decide⟩

/-- Claim C5 as amended: the Reporter's padding width equals the maximum,
over all occurrences, of the length of `"{file_path}:{line_number}"` (not
one plus it); with no occurrences the width is 0; and every printed line
pads `"{file_path}:{line_number}"` to that width before the `" -> "`
separator. -/
theorem reporter_width_eq_max_key_length (results : List Occurance) :
    max_line_length results = maxNatList (results.map (fun r => (occKey r).length))
    ∧ max_line_length ([] : List Occurance) = 0
    ∧ render results = results.map (fun r =>
        padTo (occKey r) (max_line_length results) ++ " -> "
          ++ highlight_text r.line_content r.target_string) := by
  refine ⟨?_, rfl, rfl⟩
  rw [max_line_length]
  have hfun : (fun r : Occurance =>
        extra_line_space + r.filename.length + (toString r.line_number).length)
      = fun r : Occurance => (occKey r).length := by
    funext r
    have hc : (":" : String).length = 1 := rfl
    rw [occKey, String.length_append, String.length_append, hc, extra_line_space]
    omega
  rw [hfun]

/-! ## Highlighting -/

theorem hlGo_length_ge (t : List Char) (ht : t ≠ []) :
    ∀ (fuel : Nat) (l : List Char), l.length ≤ (hlGo t fuel l).length := by
  have hne : t.isEmpty = false := by
    cases t with
    | nil => exact absurd rfl ht
    | cons a as => rfl
  intro fuel
  induction fuel with
  | zero =>
    intro l
    cases l with
    | nil => simp [hlGo, hne]
    | cons c cs => simp [hlGo]
  | succ fuel ih =>
    intro l
    cases l with
    | nil => simp [hlGo, hne]
    | cons c cs =>
      cases hp : List.isPrefixOf t (lowerChars (c :: cs)) with
      | true =>
        have hgoal : hlGo t (fuel + 1) (c :: cs)
            = wrapBold ((c :: cs).take t.length) ++ hlGo t fuel ((c :: cs).drop t.length) := by
          simp [hlGo, hne, hp]
        rw [hgoal]
        have hrec := ih ((c :: cs).drop t.length)
        have h4 : BOLD_START.data.length = 4 := rfl
        have h4' : BOLD_END.data.length = 4 := rfl
        simp only [wrapBold, List.length_append, List.length_take, List.length_drop,
          List.length_cons, h4, h4'] at *
        omega
      | false =>
        have hgoal : hlGo t (fuel + 1) (c :: cs) = c :: hlGo t fuel cs := by
          simp [hlGo, hne, hp]
        rw [hgoal]
        simp only [List.length_cons]
        exact Nat.succ_le_succ (ih cs)

theorem hlGo_no_match (t : List Char) (ht : t ≠ []) :
    ∀ (fuel : Nat) (l : List Char), ¬ t <:+: lowerChars l → hlGo t fuel l = l := by
  have hne : t.isEmpty = false := by
    cases t with
    | nil => exact absurd rfl ht
    | cons a as => rfl
  intro fuel
  induction fuel with
  | zero =>
    intro l _
    cases l with
    | nil => simp [hlGo, hne]
    | cons c cs => simp [hlGo]
  | succ fuel ih =>
    intro l hm
    cases l with
    | nil => simp [hlGo, hne]
    | cons c cs =>
      have hl : lowerChars (c :: cs) = Char.toLower c :: lowerChars cs := rfl
      rw [hl, List.infix_cons_iff] at hm
      push_neg at hm
      obtain ⟨hm1, hm2⟩ := hm
      have hp : List.isPrefixOf t (lowerChars (c :: cs)) = false := by
        cases hb : List.isPrefixOf t (lowerChars (c :: cs)) with
        | false => rfl
        | true =>
          have := List.isPrefixOf_iff_prefix.mp hb
          rw [hl] at this
          exact absurd this hm1
      simp [hlGo, hne, hp, ih cs hm2]

theorem hlGo_match_longer (t : List Char) (ht : t ≠ []) :
    ∀ (fuel : Nat) (l : List Char), t <:+: lowerChars l → l.length ≤ fuel →
      l.length < (hlGo t fuel l).length := by
  have hne : t.isEmpty = false := by
    cases t with
    | nil => exact absurd rfl ht
    | cons a as => rfl
  intro fuel
  induction fuel with
  | zero =>
    intro l hm hf
    have hl0 : l = [] := List.length_eq_zero.mp (Nat.le_zero.mp hf)
    subst hl0
    have : t = [] := by simpa [lowerChars] using hm
    exact absurd this ht
  | succ fuel ih =>
    intro l hm hf
    cases l with
    | nil =>
      have : t = [] := by simpa [lowerChars] using hm
      exact absurd this ht
    | cons c cs =>
      cases hp : List.isPrefixOf t (lowerChars (c :: cs)) with
      | true =>
        have hgoal : hlGo t (fuel + 1) (c :: cs)
            = wrapBold ((c :: cs).take t.length) ++ hlGo t fuel ((c :: cs).drop t.length) := by
          simp [hlGo, hne, hp]
        rw [hgoal]
        have hrec := hlGo_length_ge t ht fuel ((c :: cs).drop t.length)
        have h4 : BOLD_START.data.length = 4 := rfl
        have h4' : BOLD_END.data.length = 4 := rfl
        simp only [wrapBold, List.length_append, List.length_take, List.length_drop,
          List.length_cons, h4, h4'] at *
        omega
      | false =>
        have hl : lowerChars (c :: cs) = Char.toLower c :: lowerChars cs := rfl
        rw [hl, List.infix_cons_iff] at hm
        have hm2 : t <:+: lowerChars cs := by
          rcases hm with h | h
          · exfalso
            rw [← hl] at h
            rw [List.isPrefixOf_iff_prefix.mpr h] at hp
            simp at hp
          · exact h
        have hgoal : hlGo t (fuel + 1) (c :: cs) = c :: hlGo t fuel cs := by
          simp [hlGo, hne, hp]
        rw [hgoal]
        simp only [List.length_cons]
        have hf' : cs.length ≤ fuel := by
          simp only [List.length_cons] at hf
          omega
        exact Nat.succ_lt_succ (ih cs hm2 hf')

/-- Claim C7: rendering highlights with a pattern that is always
case-insensitive and literal, independent of the scan's case mode (the
reporter passes no case flag and the pattern always carries `(?i)`): a line
with no case-insensitive match is returned unchanged, a line with a match
grows strictly (markers were inserted around matched text), every match on
a line is wrapped (`foo` and `FOO` both), and regex metacharacters such as
`.` stay literal text. -/
theorem highlight_text_wraps_matches :
    (∀ line target : String, target ≠ "" → caselessContains line target = false →
      highlight_text line target = line)
    ∧ (∀ line target : String, target ≠ "" → caselessContains line target = true →
      line.length < (highlight_text line target).length)
    ∧ highlight_text "foo FOO" "foo"
        = BOLD_START ++ "foo" ++ BOLD_END ++ " " ++ BOLD_START ++ "FOO" ++ BOLD_END
    ∧ highlight_text "xa.bz" "a.b" = "x" ++ BOLD_START ++ "a.b" ++ BOLD_END ++ "z"
    ∧ highlight_text "xaybz" "a.b" = "xaybz" := by
  have hnonempty : ∀ target : String, target ≠ "" → lowerChars target.data ≠ [] := by
    intro target htne h0
    apply htne
    cases target with
    | mk data =>
      cases data with
      | nil => rfl
      | cons a as => simp [lowerChars] at h0
  refine ⟨?_, ?_, by decide, by decide, by decide⟩
  · intro line target htne hcc
    have ht := hnonempty target htne
    have hnm : ¬ lowerChars target.data <:+: lowerChars line.data := by
      intro hinf
      have hcc' : charsContain (lowerChars target.data) (lowerChars line.data) = true :=
        (charsContain_spec _ _).mpr hinf
      have hcc'' : caselessContains line target = true := hcc'
      rw [hcc] at hcc''
      simp at hcc''
    have heq := hlGo_no_match (lowerChars target.data) ht line.data.length line.data hnm
    show (⟨hlGo (lowerChars target.data) line.data.length line.data⟩ : String) = line
    rw [heq]
  · intro line target htne hcc
    have ht := hnonempty target htne
    have hcc' : charsContain (lowerChars target.data) (lowerChars line.data) = true := hcc
    have hinf := (charsContain_spec _ _).mp hcc'
    exact hlGo_match_longer (lowerChars target.data) ht line.data.length line.data hinf
      (Nat.le_refl _)

/-- Witness for C7 at concrete data: `Foo` is absent caselessly from `bar`
(line unchanged) and present in `xFOOy` (line grows). -/
theorem highlight_text_wraps_matches_witness :
    ("Foo" : String) ≠ ""
    ∧ caselessContains "bar" "Foo" = false
    ∧ highlight_text "bar" "Foo" = "bar"
    ∧ caselessContains "xFOOy" "Foo" = true
    ∧ ("xFOOy" : String).length < (highlight_text "xFOOy" "Foo").length :=
  ⟨by decide, by decide,
    highlight_text_wraps_matches.1 "bar" "Foo" (by decide) (by decide),
    by decide,
    highlight_text_wraps_matches.2.1 "xFOOy" "Foo" (by decide) (by decide)⟩

/-! ## Decode failures -/

theorem checkLines_decode_error (name target escape : String) (cc : Bool) :
    ∀ (okLines : List String) (post : List LineResult) (n : Nat) (acc : List Occurance),
      checkLines name target cc escape
        (okLines.map LineResult.ok ++ LineResult.decodeErr :: post) n acc
        = Except.ok [] := by
  intro okLines
  induction okLines with
  | nil => intro post n acc; simp [checkLines]
  | cons line rest ih =>
    intro post n acc
    cases h1 : strContains line escape with
    | true => simp [checkLines, h1, ih]
    | false =>
      cases h2 : lineMatches cc target line with
      | true => simp [checkLines, h1, h2, ih]
      | false => simp [checkLines, h1, h2, ih]

/-- Claim C9: a line that fails to decode makes `check_file` return a
successful empty result for the whole file — occurrences already found on
earlier lines are discarded — and the scan of other files continues: in a
three-file run where the middle file hits a decode failure, the other two
files' occurrences are still produced. -/
theorem decode_error_skips_file (name target escape : String) (cc : Bool)
    (okLines : List String) (post : List LineResult) :
    check_file ⟨name, true, okLines.map LineResult.ok ++ LineResult.decodeErr :: post⟩
        target cc escape = Except.ok []
    ∧ check_file ⟨"bad", true, [LineResult.ok "alpha", LineResult.decodeErr]⟩
        "alpha" false "wordwarden:skip-line" = Except.ok []
    ∧ check_file ⟨"bad", true, [LineResult.ok "alpha"]⟩
        "alpha" false "wordwarden:skip-line"
      = Except.ok [⟨"bad", 1, "alpha", "alpha"⟩]
    ∧ run_sequential
        [⟨"g1", true, [LineResult.ok "alpha"]⟩,
         ⟨"bad", true, [LineResult.ok "alpha", LineResult.decodeErr]⟩,
         ⟨"g2", true, [LineResult.ok "has alpha too"]⟩]
        ["alpha"] false "wordwarden:skip-line"
      = Except.ok [⟨"g1", 1, "alpha", "alpha"⟩, ⟨"g2", 1, "alpha", "has alpha too"⟩] := by
  refine ⟨?_, rfl, rfl, rfl⟩
  simp [check_file, checkLines_decode_error]

/-! ## Argument handling and traversal -/

/-- Claim C8: a direct file argument whose file name is
`.pre-commit-config.yaml` or `.pre-commit-config.yml` is never added to the
scan list (the loop step is identical to skipping the argument), while a
directory argument contributes everything `files_in_dir` finds, and
`files_in_dir` includes every regular file of a directory with no
name-based exclusion — so the same file name reached through recursion is
scanned normally. -/
theorem precommit_config_excluded :
    (∀ (classify : String → ArgKind) (arg : String) (rest : List String) (cfg : Config),
      classify arg = ArgKind.file →
      (file_name arg = ".pre-commit-config.yaml" ∨ file_name arg = ".pre-commit-config.yml") →
      parseLoop classify (arg :: rest) cfg = parseLoop classify rest cfg)
    ∧ (∀ (classify : String → ArgKind) (arg : String) (entries : List FsEntry)
        (rest : List String) (cfg : Config),
      classify arg = ArgKind.dir entries →
      parseLoop classify (arg :: rest) cfg
        = parseLoop classify rest
            { cfg with filepaths := cfg.filepaths ++ files_in_dir arg entries })
    ∧ (∀ (base n : String) (entries : List FsEntry),
      FsEntry.file n ∈ entries → (base ++ "/" ++ n) ∈ files_in_dir base entries) := by
  refine ⟨?_, ?_, ?_⟩
  · intro classify arg rest cfg hfile hname
    have hstep : parseStep classify arg cfg = Sum.inl cfg := by
      rcases hname with h | h <;> simp [parseStep, hfile, h]
    cases rest with
    | nil => simp [parseLoop, hstep]
    | cons next rest2 => simp [parseLoop, hstep]
  · intro classify arg entries rest cfg hdir
    have hstep : parseStep classify arg cfg
        = Sum.inl { cfg with filepaths := cfg.filepaths ++ files_in_dir arg entries } := by
      simp [parseStep, hdir]
    cases rest with
    | nil => simp [parseLoop, hstep]
    | cons next rest2 => simp [parseLoop, hstep]
  · intro base n entries
    induction entries with
    | nil => intro h; simp at h
    | cons e es ih =>
      intro h
      rcases List.mem_cons.mp h with heq | hmem
      · rw [← heq]
        rw [files_in_dir]
        exact List.mem_cons_self _ _
      · have hx := ih hmem
        cases e with
        | file m =>
          rw [files_in_dir]
          exact List.mem_cons_of_mem _ hx
        | dir m sub =>
          rw [files_in_dir]
          exact List.mem_append_right _ hx
        | unreadableDir m =>
          rw [files_in_dir]
          exact hx
        | skipped =>
          rw [files_in_dir]
          exact hx

/-- Witness for C8: a direct `.pre-commit-config.yaml` file argument leaves
the loop state untouched, and the same file name inside a scanned directory
is discovered by `files_in_dir`. -/
theorem precommit_config_excluded_witness :
    parseLoop (fun s => if s = ".pre-commit-config.yaml" then ArgKind.file else ArgKind.other)
        [".pre-commit-config.yaml"] initConfig
      = parseLoop (fun s => if s = ".pre-commit-config.yaml" then ArgKind.file else ArgKind.other)
        [] initConfig
    ∧ ("examples" ++ "/" ++ ".pre-commit-config.yaml")
        ∈ files_in_dir "examples" [FsEntry.file ".pre-commit-config.yaml"] :=
  ⟨precommit_config_excluded.1
      (fun s => if s = ".pre-commit-config.yaml" then ArgKind.file else ArgKind.other)
      ".pre-commit-config.yaml" [] initConfig (by simp) (Or.inl (by decide)),
    precommit_config_excluded.2.2 "examples" ".pre-commit-config.yaml"
      [FsEntry.file ".pre-commit-config.yaml"] (List.mem_cons_self _ _)⟩

/-- Claim C10: with the argument vector ending in `-w`, the loop increments
its index and reads the next argument unconditionally, reaching the
out-of-bounds branch of the indexing (a panic); the trailing `-w` is not
handled as a usage error. -/
theorem trailing_w_reads_past_end :
    parseArgs (fun _ => ArgKind.other) ["wordwarden", "-w"] = ParseOutcome.panicOOB
    ∧ parseArgs (fun _ => ArgKind.other) ["wordwarden", "-w"] ≠ ParseOutcome.usageExit :=
  ⟨rfl, by decide⟩
